import Mathlib

/-!
# Verification of the gts-common transport and logging core

Shallow embedding of the `gts-transport` / `gts-logger` Rust crates:

* `Spmc` — the single-producer / multi-consumer "latest value" register of
  `transport/src/sync/lfspmc.rs`, modelled at byte granularity so that torn
  reads under producer/consumer interleaving are expressible.
* `Spsc` — the single-producer / single-consumer bounded ring of
  `transport/src/sync/lfringspsc.rs`.
* `Logger` — the timestamping client of `logger/src/logclient.rs`.
* `DualThread` — one cycle of the writer thread of
  `logger/src/logbackend/dualthread.rs`.

Machine integers are modelled as `Nat` with explicit `% 2^w` where the source
relies on wrapping; fallible operations return `Except`.
-/

set_option autoImplicit false

/-- The pure variants of `GtsTransportError` (`transport/src/error.rs`) that
the synchronisation primitives produce.  The remaining variants
(`LogicError`, `CommonError`, I/O wrappers) carry strings or OS errors and are
never returned by the code modelled here.  The spelling `Unitialized` is the
source's own. -/
inductive GtsTransportError where
  | Inconsistent
  | InconsistentHang
  | Unitialized
  | WouldBlock
  deriving Repr, DecidableEq

namespace Spmc

/-- `VALUE_BITS` from `lfspmc.rs`: the sequence counter rolls modulo `2^24`. -/
def VALUE_BITS : Nat := 2 ^ 24

/-- `GOOD_BIT` from `lfspmc.rs`: bit 24, set on every published tag. -/
def GOOD_BIT : Nat := 2 ^ 24

/-- One SPMC channel (`SubSpMcData` in the source): framing counters `begin`
and `end` around a data area, here a list of bytes.  `begin`/`end` are Lean
keywords, hence the `Tag` suffix. -/
structure Chan where
  beginTag : Nat
  data : List Nat
  endTag : Nat
  deriving Repr, DecidableEq

/-- A single shared-memory store performed by the producer.  `send_int` emits
`storeBegin`, then one `storeData` per byte of the payload, then `storeEnd`;
this is the order of the three writes in the source. -/
inductive WOp where
  | storeBegin (tag : Nat)
  | storeData (j : Nat) (b : Nat)
  | storeEnd (tag : Nat)
  deriving Repr, DecidableEq

/-- Effect of one producer store on the shared channel. -/
def applyOp (c : Chan) : WOp → Chan
  | WOp.storeBegin t => { c with beginTag := t }
  | WOp.storeData j b => { c with data := c.data.set j b }
  | WOp.storeEnd t => { c with endTag := t }

/-- `SpMcSender::send_int`: advance the per-channel counter modulo
`VALUE_BITS`, tag it with `GOOD_BIT`, and emit the write trace
`begin := tag; data bytes; end := tag`.  Returns the (always `ok`) result,
the new counter, and the trace of shared-memory stores in program order. -/
def send_int (seqnum : Nat) (new_data : List Nat) :
    Except GtsTransportError Unit × Nat × List WOp :=
  let s' := (seqnum + 1) % VALUE_BITS
  let tag := s' ||| GOOD_BIT
  (Except.ok (), s',
    WOp.storeBegin tag ::
      (new_data.enum.map (fun q => WOp.storeData q.1 q.2) ++ [WOp.storeEnd tag]))

/-- The store trace of one `send_int` call. -/
def sendOps (seqnum : Nat) (new_data : List Nat) : List WOp :=
  (send_int seqnum new_data).2.2

/-- The store trace of a producer that sends the values `vs` in order,
threading the per-channel counter exactly as `send_int` does. -/
def prodOps (seqnum : Nat) : List (List Nat) → List WOp
  | [] => []
  | v :: rest => sendOps seqnum v ++ prodOps ((seqnum + 1) % VALUE_BITS) rest

/-- The channel as zero-initialised by the memory-region backend:
both counters `0` (GOOD bit clear), `B` zero bytes of data. -/
def initChan (B : Nat) : Chan := ⟨0, List.replicate B 0, 0⟩

/-- Shared channel contents after the first `p` producer stores of the
stream that sends `vs` from a fresh region. -/
def chanAt (B : Nat) (vs : List (List Nat)) (p : Nat) : Chan :=
  ((prodOps 0 vs).take p).foldl applyOp (initChan B)

/-- Number of sends whose final store (`end := tag`) lies among the first
`p` producer stores. -/
def completedAt (p : Nat) : List (List Nat) → Nat
  | [] => 0
  | v :: rest =>
    if v.length + 2 ≤ p then completedAt (p - (v.length + 2)) rest + 1 else 0

/-- Number of sends whose first store (`begin := tag`) lies among the first
`p` producer stores. -/
def startedAt (p : Nat) : List (List Nat) → Nat
  | [] => 0
  | v :: rest =>
    if p = 0 then 0 else startedAt (p - (v.length + 2)) rest + 1

/-- The decision tail of `SpMcReceiver::try_recv_int`, applied to the loaded
`begin`, the loaded `end`, the consumer's `last_success_read` and the bytes
just copied into the consumer's local buffer.  Returns the result together
with the updated `last_success_read`. -/
def recvDecide (beginv endv : Nat) (last_success_read : Option Nat)
    (localcopy : List Nat) :
    Except GtsTransportError (List Nat) × Option Nat :=
  if beginv ≠ endv then
    (Except.error GtsTransportError.Inconsistent, none)
  else if beginv &&& GOOD_BIT = 0 then
    (Except.error GtsTransportError.Unitialized, last_success_read)
  else if some beginv = last_success_read then
    (Except.error GtsTransportError.WouldBlock, last_success_read)
  else
    (Except.ok localcopy, some beginv)

/-- `SpMcReceiver::try_recv_int` against a channel snapshot: the data bytes
are copied into the local buffer unconditionally, then the framing decision
is taken.  Returns (result, new `last_success_read`, new local buffer). -/
def try_recv_int (c : Chan) (last_success_read : Option Nat) :
    Except GtsTransportError (List Nat) × Option Nat × List Nat :=
  let d := recvDecide c.beginTag c.endTag last_success_read c.data
  (d.1, d.2, c.data)

/-- The bytes a concurrent consumer accumulates in its local buffer: byte `j`
is read when the producer has performed `pBytes[j]` stores. -/
def recvObsBytes (B : Nat) (vs : List (List Nat)) (pBytes : List Nat) :
    List Nat :=
  pBytes.enum.map (fun q => (chanAt B vs q.2).data.getD q.1 0)

/-- One full receive attempt interleaved with the producer stream `vs`:
`end` is loaded after `pEnd` producer stores, byte `j` after `pBytes[j]`
stores, `begin` after `pBegin` stores, and the decision of `try_recv_int` is
applied to the observations. -/
def recvAttempt (B : Nat) (vs : List (List Nat)) (last_success_read : Option Nat)
    (pEnd : Nat) (pBytes : List Nat) (pBegin : Nat) :
    Except GtsTransportError (List Nat) × Option Nat :=
  recvDecide (chanAt B vs pBegin).beginTag (chanAt B vs pEnd).endTag
    last_success_read (recvObsBytes B vs pBytes)

/-- The tag carried by the `k`-th completed send (`k ≥ 1`) of a producer whose
counter started at `0`: the rolled counter `k % VALUE_BITS` with the GOOD bit. -/
def tagOf (k : Nat) : Nat := (k % VALUE_BITS) ||| GOOD_BIT

/-- Producer history exhibiting tag wraparound: one send of `[0,0]` followed
by `2^24` sends of `[1,1]`; the last send reuses the first send's tag. -/
def cexVals : List (List Nat) := [0, 0] :: List.replicate VALUE_BITS [1, 1]

/-- Total number of producer stores in `cexVals` (each send is 4 stores). -/
def cexTotal : Nat := (VALUE_BITS + 1) * 4

/-- Modelled from the spec: the receive decision table of §4.2 as written
(torn read, never-written channel via the GOOD bit = bit 24, stale value,
fresh value), operating on a snapshot of the channel. -/
def try_recv_spec (c : Chan) (last_seen : Option Nat) :
    Except GtsTransportError (List Nat) × Option Nat × List Nat :=
  if c.beginTag ≠ c.endTag then
    (Except.error GtsTransportError.Inconsistent, none, c.data)
  else if c.beginTag.testBit 24 = false then
    (Except.error GtsTransportError.Unitialized, last_seen, c.data)
  else if some c.beginTag = last_seen then
    (Except.error GtsTransportError.WouldBlock, last_seen, c.data)
  else
    (Except.ok c.data, some c.beginTag, c.data)

/-- `MAX_ITER_TILL_HANG` from `lfspmc.rs`. -/
def MAX_ITER_TILL_HANG : Nat := 1000

/-- `SpMcReceiver::try_recv_*_multi`: iterate the single receive attempt
against the channel snapshots `chans 0, chans 1, …` (the channel may change
between attempts under concurrent sends), retrying only on `Inconsistent`.
Returns the result, the final `last_success_read`, and the number of
attempts performed. -/
def try_recv_multi_aux (chans : Nat → Chan) :
    Nat → Nat → Option Nat →
      Except GtsTransportError (List Nat) × Option Nat × Nat
  | 0, i, ls => (Except.error GtsTransportError.InconsistentHang, ls, i)
  | fuel + 1, i, ls =>
    match (try_recv_int (chans i) ls).1 with
    | Except.error GtsTransportError.Inconsistent =>
      try_recv_multi_aux chans fuel (i + 1) (try_recv_int (chans i) ls).2.1
    | r => (r, (try_recv_int (chans i) ls).2.1, i + 1)

/-- `SpMcReceiver::try_recv_info_multi` / `try_recv_slot_multi`. -/
def try_recv_multi (chans : Nat → Chan) (ls : Option Nat) :
    Except GtsTransportError (List Nat) × Option Nat × Nat :=
  try_recv_multi_aux chans MAX_ITER_TILL_HANG 0 ls

end Spmc

namespace Spsc

/-- The SPSC ring of `lfringspsc.rs`, sequential model: the shared
`SpScRingData` fields (`read_done_seqnum`, `write_done_seqnum`, `data`, with
`Option` marking never-written `MaybeUninit` slots), the producer-local
`last_send_seqnum` and the consumer-local `last_copy` / `last_read_seqnum`. -/
structure RingState (α : Type) where
  read_done_seqnum : Nat
  write_done_seqnum : Nat
  data : List (Option α)
  last_send_seqnum : Nat
  last_copy : Option α
  last_read_seqnum : Option Nat
  deriving Repr, DecidableEq

/-- A zeroed region paired with freshly constructed endpoints
(`spsc_ring_pair` on `MemChunkHolder::zeroed`). -/
def initRing (α : Type) (R : Nat) : RingState α :=
  ⟨0, 0, List.replicate R none, 0, none, none⟩

/-- `SpScRingSender::send`: compute `next = (last_send_seqnum + 1) % R`; if
`read_done_seqnum == next` report `WouldBlock` (touching nothing); otherwise
write the value into slot `next`, publish `write_done_seqnum = next` and
remember `last_send_seqnum = next`. -/
def send {α : Type} (R : Nat) (st : RingState α) (new_data : α) :
    Except GtsTransportError Unit × RingState α :=
  let next_seqnum := (st.last_send_seqnum + 1) % R
  let read_seqnum := st.read_done_seqnum
  if read_seqnum = next_seqnum then
    (Except.error GtsTransportError.WouldBlock, st)
  else
    (Except.ok (), { st with
      last_send_seqnum := next_seqnum,
      data := st.data.set next_seqnum (some new_data),
      write_done_seqnum := next_seqnum })

/-- `SpScRingReceiver::try_recv`: if `write_done_seqnum == read_done_seqnum`
report `WouldBlock`; otherwise copy slot `(read_done_seqnum + 1) % R` into
`last_copy`, publish the new `read_done_seqnum` and return the copy.  The
source never touches `last_read_seqnum` here. -/
def try_recv {α : Type} (R : Nat) (st : RingState α) :
    Except GtsTransportError (Option α) × RingState α :=
  let send_seqnum := st.write_done_seqnum
  let read_seqnum := st.read_done_seqnum
  if send_seqnum = read_seqnum then
    (Except.error GtsTransportError.WouldBlock, st)
  else
    let next_read := (read_seqnum + 1) % R
    let c := st.data.getD next_read none
    (Except.ok c, { st with read_done_seqnum := next_read, last_copy := c })

/-- `SpScRingReceiver::get_last_value`: the copy buffer, guarded by
`last_read_seqnum`. -/
def get_last_value {α : Type} (st : RingState α) : Option α :=
  match st.last_read_seqnum with
  | some _ => st.last_copy
  | none => none

/-- One producer/consumer operation on the pair. -/
inductive RingOp (α : Type) where
  | send (v : α)
  | recv
  deriving Repr, DecidableEq

/-- Run one operation, accumulating the successfully sent values and the
successfully received copies. -/
def stepOp {α : Type} (R : Nat) (acc : RingState α × List α × List (Option α)) :
    RingOp α → RingState α × List α × List (Option α)
  | RingOp.send v =>
    match send R acc.1 v with
    | (Except.ok _, st') => (st', acc.2.1 ++ [v], acc.2.2)
    | (Except.error _, st') => (st', acc.2.1, acc.2.2)
  | RingOp.recv =>
    match try_recv R acc.1 with
    | (Except.ok c, st') => (st', acc.2.1, acc.2.2 ++ [c])
    | (Except.error _, st') => (st', acc.2.1, acc.2.2)

/-- Run a sequence of operations from a fresh pair. -/
def runOps {α : Type} (R : Nat) (ops : List (RingOp α)) :
    RingState α × List α × List (Option α) :=
  ops.foldl (stepOp R) (initRing α R, [], [])

/-- The ring invariant tying the shared and local state to the histories of
successfully sent values and successfully received copies. -/
structure Inv {α : Type} (R : Nat) (st : RingState α) (sent : List α)
    (rcvd : List (Option α)) : Prop where
  copies_eq : rcvd = (sent.take rcvd.length).map some
  len_le : rcvd.length ≤ sent.length
  cap : sent.length - rcvd.length ≤ R - 1
  lastSend : st.last_send_seqnum = sent.length % R
  writeDone : st.write_done_seqnum = sent.length % R
  readDone : st.read_done_seqnum = rcvd.length % R
  dataLen : st.data.length = R
  dataAt : ∀ i, rcvd.length ≤ i → i < sent.length →
    st.data.getD ((i + 1) % R) none = sent[i]?

end Spsc

namespace Logger

/-- One call on a `LogClient` (`logclient.rs`): `log` takes a fresh clock
reading, `log_same` reuses the stored timestamp. -/
inductive LogOp (E : Type) where
  | log (e : E)
  | log_same (e : E)

/-- Run a sequence of `log` / `log_same` calls.  State: `last_ts` (the
client's `Cell<(u64, u32)>`, initially `(0, 0)`) and the index of the next
clock reading; `clock j` is the value `now()` returns on the `j`-th `log`
call.  `seqid` is a `u32` and wraps at `2^32` as Rust release arithmetic
does.  Returns the enqueued `(timestamp, seqid, data)` events in order. -/
def runLogOps {E : Type} (clock : Nat → Nat) :
    Nat × Nat → Nat → List (LogOp E) → List (Nat × Nat × E)
  | _, _, [] => []
  | (t, s), j, LogOp.log_same e :: rest =>
    let s' := (s + 1) % 2 ^ 32
    (t, s', e) :: runLogOps clock (t, s') j rest
  | _, j, LogOp.log e :: rest =>
    let t := clock j
    (t, 0, e) :: runLogOps clock (t, 0) (j + 1) rest

/-- Strict lexicographic order on `(timestamp, seqid)` pairs. -/
def pairLt (a b : Nat × Nat) : Prop :=
  a.1 < b.1 ∨ (a.1 = b.1 ∧ a.2 < b.2)

end Logger

namespace DualThread

/-- One cycle of the writer thread in `DualThreadLogBacked::new`
(`dualthread.rs`): drain the intermediate queue into the buffer; then, when
the buffer is non-empty and either holds at least 5000 records or more than
5000 ms elapsed since the last flush, the source merely resets the
last-flush instant — the `log_size` and `duration` it computes are dropped,
no record is serialized, nothing is written to any sink (the `fname` passed
to `new` is never used), and the buffer is not cleared.  Returns the new
buffer, whether the last-flush instant was reset, and the byte strings
written to a sink during the cycle (always none in the source). -/
def writerCycle {ρ : Type} (logs queue : List ρ) (elapsedMs : Nat) :
    List ρ × Bool × List (List Nat) :=
  let logs2 := logs ++ queue
  if logs2.isEmpty = false ∧ (5000 ≤ logs2.length ∨ 5000 < elapsedMs) then
    (logs2, true, [])
  else
    (logs2, false, [])

end DualThread

namespace Spmc

/-! ### Arithmetic of sequence tags -/

theorem lor_two_pow_eq_add {a n : Nat} (h : a < 2 ^ n) : a ||| 2 ^ n = a + 2 ^ n := by
  apply Nat.eq_of_testBit_eq
  intro i
  rcases lt_trichotomy i n with hi | hi | hi
  · rw [Nat.testBit_lor, Nat.add_comm, Nat.testBit_two_pow_add_gt hi,
      Nat.testBit_two_pow_of_ne (Nat.ne_of_gt hi), Bool.or_false]
  · subst hi
    rw [Nat.testBit_lor, Nat.testBit_two_pow_self, Nat.add_comm,
      Nat.testBit_two_pow_add_eq, Nat.testBit_lt_two_pow h]
    simp
  · have h1 : a < 2 ^ i := lt_of_lt_of_le h (Nat.pow_le_pow_right (by norm_num) (Nat.le_of_lt hi))
    have h2 : a + 2 ^ n < 2 ^ i := by
      have : 2 ^ n + 2 ^ n ≤ 2 ^ i := by
        have : 2 ^ (n + 1) ≤ 2 ^ i := Nat.pow_le_pow_right (by norm_num) hi
        simpa [Nat.pow_succ, Nat.mul_two] using this
      omega
    rw [Nat.testBit_lor, Nat.testBit_lt_two_pow h1, Nat.testBit_lt_two_pow h2,
      Nat.testBit_two_pow_of_ne (Nat.ne_of_lt hi), Bool.or_false]

theorem valueBits_pos : 0 < VALUE_BITS := by norm_num [VALUE_BITS]

theorem tagOf_eq_add (k : Nat) : tagOf k = k % VALUE_BITS + 2 ^ 24 :=
  lor_two_pow_eq_add (Nat.mod_lt _ valueBits_pos)

theorem tagOf_inj {k k' : Nat} (h : tagOf k = tagOf k') :
    k % VALUE_BITS = k' % VALUE_BITS := by
  rw [tagOf_eq_add, tagOf_eq_add] at h
  omega

theorem tagOf_ne_zero (k : Nat) : tagOf k ≠ 0 := by
  rw [tagOf_eq_add]; omega

theorem land_good_eq_zero_iff (x : Nat) :
    x &&& GOOD_BIT = 0 ↔ x.testBit 24 = false := by
  rw [GOOD_BIT, Nat.and_two_pow]
  cases h : x.testBit 24 <;> simp

theorem tagOf_land_good (k : Nat) : tagOf k &&& GOOD_BIT ≠ 0 := by
  have h24 : (k % VALUE_BITS).testBit 24 = false :=
    Nat.testBit_lt_two_pow (Nat.mod_lt _ valueBits_pos)
  rw [Ne, land_good_eq_zero_iff, tagOf_eq_add, Nat.add_comm,
    Nat.testBit_two_pow_add_eq, h24]
  simp

theorem mod_value_bits_succ (a : Nat) :
    (a % VALUE_BITS + 1) % VALUE_BITS = (a + 1) % VALUE_BITS := by
  simp only [VALUE_BITS]
  omega

/-! ### Structure of the producer's store traces -/

theorem sendOps_def (s : Nat) (v : List Nat) :
    sendOps s v =
      WOp.storeBegin (((s + 1) % VALUE_BITS) ||| GOOD_BIT) ::
        (v.enum.map (fun q => WOp.storeData q.1 q.2) ++
          [WOp.storeEnd (((s + 1) % VALUE_BITS) ||| GOOD_BIT)]) := rfl

theorem sendOps_length (s : Nat) (v : List Nat) :
    (sendOps s v).length = v.length + 2 := by
  simp [sendOps_def, List.enum_length]

theorem prodOps_length {B : Nat} (s : Nat) {vs : List (List Nat)}
    (h : ∀ v ∈ vs, v.length = B) :
    (prodOps s vs).length = vs.length * (B + 2) := by
  induction vs generalizing s with
  | nil => simp [prodOps]
  | cons v rest ih =>
    have hv : v.length = B := h v (List.mem_cons_self v rest)
    simp only [prodOps, List.length_append, sendOps_length, hv,
      ih _ (fun w hw => h w (List.mem_cons_of_mem _ hw)), List.length_cons]
    ring

/-! ### Effect of complete sends on the channel -/

theorem foldl_storeData (c : Chan) (l : List (Nat × Nat)) :
    List.foldl applyOp c (l.map (fun q => WOp.storeData q.1 q.2)) =
      { c with data := l.foldl (fun d q => d.set q.1 q.2) c.data } := by
  induction l generalizing c with
  | nil => simp
  | cons q rest ih => simp [applyOp, ih]

theorem take_set_succ (d : List Nat) :
    ∀ (n : Nat) (b : Nat), n < d.length →
      (d.set n b).take (n + 1) = d.take n ++ [b] := by
  induction d with
  | nil => intro n b h; simp at h
  | cons x xs ih =>
    intro n b h
    cases n with
    | zero => simp
    | succ n =>
      rw [List.set_cons_succ, List.take_succ_cons, List.take_succ_cons,
        ih n b (by simpa using h)]
      simp

theorem foldl_set_enumFrom :
    ∀ (v d : List Nat) (n : Nat), d.length = n + v.length →
      (List.enumFrom n v).foldl (fun d q => d.set q.1 q.2) d = d.take n ++ v := by
  intro v
  induction v with
  | nil =>
    intro d n h
    simp only [List.length_nil, Nat.add_zero] at h
    simp only [List.enumFrom_nil, List.foldl_nil, List.append_nil]
    exact (List.take_of_length_le (Nat.le_of_eq h)).symm
  | cons b bs ih =>
    intro d n h
    simp only [List.length_cons] at h
    rw [List.enumFrom_cons, List.foldl_cons,
      ih (d.set n b) (n + 1) (by simp only [List.length_set]; omega),
      take_set_succ d n b (by omega)]
    simp

theorem foldl_sendOps (c : Chan) (s : Nat) (v : List Nat)
    (h : c.data.length = v.length) :
    List.foldl applyOp c (sendOps s v) =
      ⟨((s + 1) % VALUE_BITS) ||| GOOD_BIT, v, ((s + 1) % VALUE_BITS) ||| GOOD_BIT⟩ := by
  rw [sendOps_def, List.foldl_cons, List.foldl_append, List.enum_eq_enumFrom,
    foldl_storeData, foldl_set_enumFrom v _ 0 (by simpa [applyOp] using h)]
  simp [applyOp]

theorem tags_of_foldl_data (l : List WOp)
    (h : ∀ op ∈ l, ∃ j b, op = WOp.storeData j b) :
    ∀ c : Chan, (List.foldl applyOp c l).endTag = c.endTag ∧
      (List.foldl applyOp c l).beginTag = c.beginTag := by
  induction l with
  | nil => intro c; simp
  | cons op rest ih =>
    intro c
    obtain ⟨j, b, rfl⟩ := h op (List.mem_cons_self op rest)
    have := ih (fun op' hop' => h op' (List.mem_cons_of_mem _ hop')) (applyOp c (WOp.storeData j b))
    simpa [applyOp] using this

theorem foldl_take_sendOps_tags (c : Chan) (s : Nat) (v : List Nat) (q : Nat) :
    ((List.foldl applyOp c ((sendOps s v).take q)).endTag =
      if v.length + 2 ≤ q then ((s + 1) % VALUE_BITS) ||| GOOD_BIT else c.endTag) ∧
    ((List.foldl applyOp c ((sendOps s v).take q)).beginTag =
      if 1 ≤ q then ((s + 1) % VALUE_BITS) ||| GOOD_BIT else c.beginTag) := by
  cases q with
  | zero => simp
  | succ q' =>
    have hmap : ∀ op ∈ (v.enum.map (fun q => WOp.storeData q.1 q.2)).take q',
        ∃ j b, op = WOp.storeData j b := by
      intro op hop
      have hop' := List.take_subset q' _ hop
      obtain ⟨q, _, rfl⟩ := List.mem_map.mp hop'
      exact ⟨q.1, q.2, rfl⟩
    rw [sendOps_def, List.take_succ_cons, List.foldl_cons, List.take_append_eq_append_take,
      List.foldl_append]
    by_cases hq : v.length + 1 ≤ q'
    · have h1 : (v.enum.map (fun q => WOp.storeData q.1 q.2)).take q' =
          v.enum.map (fun q => WOp.storeData q.1 q.2) :=
        List.take_of_length_le (by simp [List.enum_length]; omega)
      have h2 : [WOp.storeEnd (((s + 1) % VALUE_BITS) ||| GOOD_BIT)].take
          (q' - (v.enum.map (fun q => WOp.storeData q.1 q.2)).length) =
          [WOp.storeEnd (((s + 1) % VALUE_BITS) ||| GOOD_BIT)] :=
        List.take_of_length_le (by simp [List.enum_length]; omega)
      rw [h1, h2]
      have htags := tags_of_foldl_data (v.enum.map (fun q => WOp.storeData q.1 q.2))
        (fun op hop => by
          obtain ⟨q, _, rfl⟩ := List.mem_map.mp hop
          exact ⟨q.1, q.2, rfl⟩)
        (applyOp c (WOp.storeBegin (((s + 1) % VALUE_BITS) ||| GOOD_BIT)))
      constructor
      · simp only [List.foldl_cons, List.foldl_nil, applyOp]
        simp [hq]
      · have hb := htags.2
        simp only [List.foldl_cons, List.foldl_nil, applyOp] at hb ⊢
        simp [hb, applyOp]
    · have h2 : q' - (v.enum.map (fun q => WOp.storeData q.1 q.2)).length = 0 := by
        simp [List.enum_length]; omega
      rw [h2]
      simp only [List.take_zero, List.append_nil]
      have htags := tags_of_foldl_data
        ((v.enum.map (fun q => WOp.storeData q.1 q.2)).take q') hmap
        (applyOp c (WOp.storeBegin (((s + 1) % VALUE_BITS) ||| GOOD_BIT)))
      constructor
      · simp only [List.foldl_nil]
        rw [htags.1]
        simp [applyOp, hq]
      · simp only [List.foldl_nil]
        rw [htags.2]
        simp [applyOp]

theorem startedAt_zero (vs : List (List Nat)) : startedAt 0 vs = 0 := by
  cases vs <;> simp [startedAt]

theorem completedAt_le_startedAt (vs : List (List Nat)) :
    ∀ p : Nat, completedAt p vs ≤ startedAt p vs := by
  induction vs with
  | nil => intro p; simp [completedAt, startedAt]
  | cons v rest ih =>
    intro p
    simp only [completedAt, startedAt]
    by_cases h : v.length + 2 ≤ p
    · rw [if_pos h, if_neg (by omega : ¬ p = 0)]
      exact Nat.add_le_add_right (ih _) 1
    · rw [if_neg h]
      exact Nat.zero_le _

theorem startedAt_mono (vs : List (List Nat)) :
    ∀ {p q : Nat}, p ≤ q → startedAt p vs ≤ startedAt q vs := by
  induction vs with
  | nil => intro p q _; simp [startedAt]
  | cons v rest ih =>
    intro p q hpq
    simp only [startedAt]
    by_cases hp : p = 0
    · rw [if_pos hp]; exact Nat.zero_le _
    · rw [if_neg hp, if_neg (by omega : ¬ q = 0)]
      exact Nat.add_le_add_right (ih (by omega)) 1

theorem completedAt_mono (vs : List (List Nat)) :
    ∀ {p q : Nat}, p ≤ q → completedAt p vs ≤ completedAt q vs := by
  induction vs with
  | nil => intro p q _; simp [completedAt]
  | cons v rest ih =>
    intro p q hpq
    simp only [completedAt]
    by_cases hp : v.length + 2 ≤ p
    · rw [if_pos hp, if_pos (by omega)]
      exact Nat.add_le_add_right (ih (by omega)) 1
    · rw [if_neg hp]
      exact Nat.zero_le _

theorem startedAt_le_length (vs : List (List Nat)) :
    ∀ p : Nat, startedAt p vs ≤ vs.length := by
  induction vs with
  | nil => intro p; simp [startedAt]
  | cons v rest ih =>
    intro p
    simp only [startedAt, List.length_cons]
    by_cases hp : p = 0
    · rw [if_pos hp]; exact Nat.zero_le _
    · rw [if_neg hp]
      exact Nat.add_le_add_right (ih _) 1

theorem endTag_char :
    ∀ (vs : List (List Nat)) (c : Chan) (s p : Nat),
      (List.foldl applyOp c ((prodOps s vs).take p)).endTag =
        if completedAt p vs = 0 then c.endTag
        else ((s + completedAt p vs) % VALUE_BITS) ||| GOOD_BIT := by
  intro vs
  induction vs with
  | nil => intro c s p; simp [prodOps, completedAt]
  | cons v rest ih =>
    intro c s p
    rw [prodOps, List.take_append_eq_append_take, List.foldl_append, sendOps_length]
    have hsend := (foldl_take_sendOps_tags c s v p).1
    by_cases hL : v.length + 2 ≤ p
    · have hfull : (sendOps s v).take p = sendOps s v :=
        List.take_of_length_le (by rw [sendOps_length]; omega)
      rw [ih _ ((s + 1) % VALUE_BITS) (p - (v.length + 2))]
      simp only [completedAt, if_pos hL]
      by_cases hc0 : completedAt (p - (v.length + 2)) rest = 0
      · rw [if_pos hc0, hsend, if_pos hL, hc0, if_neg (by omega : ¬ (0:Nat) + 1 = 0)]
      · rw [if_neg hc0, if_neg (by omega)]
        have : ((s + 1) % VALUE_BITS + completedAt (p - (v.length + 2)) rest) % VALUE_BITS =
            (s + (completedAt (p - (v.length + 2)) rest + 1)) % VALUE_BITS := by
          simp only [VALUE_BITS]; omega
        rw [this]
    · have hp0 : p - (v.length + 2) = 0 := by omega
      rw [hp0]
      simp only [List.take_zero, List.foldl_nil]
      rw [hsend, if_neg hL]
      simp [completedAt, hL]

theorem beginTag_char :
    ∀ (vs : List (List Nat)) (c : Chan) (s p : Nat),
      (List.foldl applyOp c ((prodOps s vs).take p)).beginTag =
        if startedAt p vs = 0 then c.beginTag
        else ((s + startedAt p vs) % VALUE_BITS) ||| GOOD_BIT := by
  intro vs
  induction vs with
  | nil => intro c s p; simp [prodOps, startedAt]
  | cons v rest ih =>
    intro c s p
    rw [prodOps, List.take_append_eq_append_take, List.foldl_append, sendOps_length]
    have hsend := (foldl_take_sendOps_tags c s v p).2
    by_cases hp : p = 0
    · subst hp
      rw [startedAt_zero]
      simp
    · rw [ih _ ((s + 1) % VALUE_BITS) (p - (v.length + 2))]
      simp only [startedAt, if_neg hp]
      by_cases hs0 : startedAt (p - (v.length + 2)) rest = 0
      · rw [if_pos hs0, hsend, if_pos (by omega : 1 ≤ p), hs0,
          if_neg (by omega : ¬ (0:Nat) + 1 = 0)]
      · rw [if_neg hs0, if_neg (by omega)]
        have : ((s + 1) % VALUE_BITS + startedAt (p - (v.length + 2)) rest) % VALUE_BITS =
            (s + (startedAt (p - (v.length + 2)) rest + 1)) % VALUE_BITS := by
          simp only [VALUE_BITS]; omega
        rw [this]

theorem take_prodOps_of_quiescent :
    ∀ (vs : List (List Nat)) (s p : Nat),
      startedAt p vs = completedAt p vs →
      (prodOps s vs).take p = prodOps s (vs.take (completedAt p vs)) := by
  intro vs
  induction vs with
  | nil => intro s p _; simp [prodOps, completedAt]
  | cons v rest ih =>
    intro s p h
    by_cases hp : p = 0
    · subst hp
      simp only [completedAt, if_neg (by omega : ¬ v.length + 2 ≤ 0)]
      simp [prodOps]
    · by_cases hL : v.length + 2 ≤ p
      · simp only [startedAt, completedAt, if_neg hp, if_pos hL] at h
        have h' : startedAt (p - (v.length + 2)) rest =
            completedAt (p - (v.length + 2)) rest := by omega
        rw [prodOps, List.take_append_eq_append_take, sendOps_length,
          List.take_of_length_le (by rw [sendOps_length]; omega), ih _ _ h']
        simp only [completedAt, if_pos hL, List.take_succ_cons, prodOps]
      · exfalso
        simp only [startedAt, completedAt, if_neg hp, if_neg hL] at h
        omega

theorem foldl_prodOps_full {B : Nat} :
    ∀ (vs : List (List Nat)) (c : Chan) (s : Nat) (hne : vs ≠ []),
      (∀ v ∈ vs, v.length = B) → c.data.length = B →
      List.foldl applyOp c (prodOps s vs) =
        ⟨((s + vs.length) % VALUE_BITS) ||| GOOD_BIT, vs.getLast hne,
          ((s + vs.length) % VALUE_BITS) ||| GOOD_BIT⟩ := by
  intro vs
  induction vs with
  | nil => intro _ _ hne _ _; exact absurd rfl hne
  | cons v rest ih =>
    intro c s hne h hc
    have hv : v.length = B := h v (List.mem_cons_self v rest)
    rw [prodOps, List.foldl_append, foldl_sendOps c s v (hc.trans hv.symm)]
    cases rest with
    | nil => simp [prodOps, List.getLast]
    | cons w rest' =>
      rw [ih _ _ (by simp) (fun u hu => h u (List.mem_cons_of_mem _ hu)) (by simp [hv])]
      have harith :
          ((s + 1) % VALUE_BITS + (w :: rest').length) % VALUE_BITS =
            (s + (v :: w :: rest').length) % VALUE_BITS := by
        simp only [List.length_cons, VALUE_BITS]
        omega
      rw [harith]
      rfl

theorem chanAt_of_quiescent {B : Nat} (vs : List (List Nat)) (p k : Nat)
    (hB : ∀ v ∈ vs, v.length = B)
    (hs : startedAt p vs = k) (hc : completedAt p vs = k) (hk : 1 ≤ k) :
    chanAt B vs p = ⟨tagOf k, vs.getD (k - 1) [], tagOf k⟩ := by
  have hkl : k ≤ vs.length := hs ▸ startedAt_le_length vs p
  rw [chanAt, take_prodOps_of_quiescent vs 0 p (hs.trans hc.symm), hc]
  have hne : vs.take k ≠ [] := by
    intro hcon
    have := congrArg List.length hcon
    simp only [List.length_take, List.length_nil] at this
    omega
  rw [foldl_prodOps_full (vs.take k) (initChan B) 0 hne
    (fun v hv => hB v (List.take_subset _ _ hv)) (by simp [initChan])]
  have hlen : (vs.take k).length = k := by
    simp only [List.length_take]
    omega
  simp only [hlen, Nat.zero_add, tagOf]
  congr 1
  rw [List.getLast_eq_getElem, List.getD_eq_getElem vs [] (by omega : k - 1 < vs.length)]
  simp only [hlen]
  exact List.getElem_take vs

theorem recvObsBytes_of_quiescent {B : Nat} (vs : List (List Nat))
    (pBytes : List Nat) (pEnd pBegin k : Nat)
    (hB : ∀ v ∈ vs, v.length = B)
    (hLen : pBytes.length = B)
    (hOrd : ∀ p ∈ pBytes, pEnd ≤ p ∧ p ≤ pBegin)
    (hsB : startedAt pBegin vs = k) (hcE : completedAt pEnd vs = k) (hk : 1 ≤ k) :
    recvObsBytes B vs pBytes = vs.getD (k - 1) [] := by
  have hkl : k ≤ vs.length := hsB ▸ startedAt_le_length vs pBegin
  have hvmem : vs.getD (k - 1) [] ∈ vs := by
    rw [List.getD_eq_getElem vs [] (by omega : k - 1 < vs.length)]
    exact List.getElem_mem _
  have hvlen : (vs.getD (k - 1) []).length = B := hB _ hvmem
  apply List.ext_getElem
    (by simp only [recvObsBytes, List.length_map, List.enum_length, hLen, hvlen])
  intro n hn1 hn2
  have hnp : n < pBytes.length := by
    simpa [recvObsBytes, List.enum_length] using hn1
  simp only [recvObsBytes, List.getElem_map, List.getElem_enum]
  obtain ⟨hple, hpge⟩ := hOrd (pBytes[n]) (List.getElem_mem hnp)
  have h2 : k ≤ completedAt (pBytes[n]) vs := hcE ▸ completedAt_mono vs hple
  have h3 := completedAt_le_startedAt vs (pBytes[n])
  have h1 : startedAt (pBytes[n]) vs ≤ k := hsB ▸ startedAt_mono vs hpge
  have hsq : startedAt (pBytes[n]) vs = k := by omega
  have hcq : completedAt (pBytes[n]) vs = k := by omega
  rw [chanAt_of_quiescent vs _ k hB hsq hcq hk]
  have hnB : n < (vs.getD (k - 1) []).length := by rw [hvlen]; omega
  exact List.getD_eq_getElem _ 0 hnB

theorem chanAt_beginTag (B : Nat) (vs : List (List Nat)) (p : Nat) :
    (chanAt B vs p).beginTag =
      if startedAt p vs = 0 then 0 else tagOf (startedAt p vs) := by
  rw [chanAt, beginTag_char]
  by_cases h : startedAt p vs = 0
  · simp [h, initChan]
  · simp [h, tagOf]

theorem chanAt_endTag (B : Nat) (vs : List (List Nat)) (p : Nat) :
    (chanAt B vs p).endTag =
      if completedAt p vs = 0 then 0 else tagOf (completedAt p vs) := by
  rw [chanAt, endTag_char]
  by_cases h : completedAt p vs = 0
  · simp [h, initChan]
  · simp [h, tagOf]

/-- **C1 (amended).** Read integrity of the SPMC register: a successful
`try_recv_*` whose observation window spans fewer than `2^24` producer send
starts returns, in its entirety, one of the values passed to `send_*`. -/
theorem c1_spmc_read_integrity {B : Nat} (vs : List (List Nat)) (ls : Option Nat)
    (pEnd pBegin : Nat) (pBytes : List Nat) (buf : List Nat)
    (hB : ∀ v ∈ vs, v.length = B)
    (hLen : pBytes.length = B)
    (hOrd : ∀ p ∈ pBytes, pEnd ≤ p ∧ p ≤ pBegin)
    (hEB : pEnd ≤ pBegin)
    (hWin : startedAt pBegin vs - completedAt pEnd vs < VALUE_BITS)
    (hOk : (recvAttempt B vs ls pEnd pBytes pBegin).1 = Except.ok buf) :
    buf ∈ vs := by
  have hbegin := chanAt_beginTag B vs pBegin
  have hend := chanAt_endTag B vs pEnd
  rw [recvAttempt, recvDecide] at hOk
  split_ifs at hOk with h1 h2 h3
  have hbuf : buf = recvObsBytes B vs pBytes := by
    simpa using hOk.symm
  rw [Decidable.not_not] at h1
  by_cases hS0 : startedAt pBegin vs = 0
  · exfalso
    rw [hbegin, if_pos hS0] at h2
    exact h2 (by decide)
  · by_cases hC0 : completedAt pEnd vs = 0
    · exfalso
      rw [hbegin, if_neg hS0, hend, if_pos hC0] at h1
      exact tagOf_ne_zero _ h1
    · rw [hbegin, if_neg hS0, hend, if_neg hC0] at h1
      have hmod := tagOf_inj h1
      have hle : completedAt pEnd vs ≤ startedAt pBegin vs := by
        have ha := completedAt_le_startedAt vs pEnd
        have hb := startedAt_mono vs hEB
        omega
      have hkk : startedAt pBegin vs = completedAt pEnd vs := by
        simp only [VALUE_BITS] at hmod hWin ⊢
        omega
      have hbytes := recvObsBytes_of_quiescent vs pBytes pEnd pBegin
        (completedAt pEnd vs) hB hLen hOrd hkk rfl (by omega)
      rw [hbuf, hbytes]
      have hkl : completedAt pEnd vs ≤ vs.length := by
        have := startedAt_le_length vs pBegin
        omega
      rw [List.getD_eq_getElem vs []
        (by omega : completedAt pEnd vs - 1 < vs.length)]
      exact List.getElem_mem _

theorem cexVals_len : ∀ v ∈ cexVals, v.length = 2 := by
  intro v hv
  rcases List.mem_cons.mp hv with h | h
  · rw [h]
    rfl
  · rw [List.eq_of_mem_replicate h]
    rfl

theorem cexVals_length : cexVals.length = VALUE_BITS + 1 := by
  rw [cexVals, List.length_cons, List.length_replicate]

theorem cexChan4 : chanAt 2 cexVals 4 = ⟨tagOf 1, [0, 0], tagOf 1⟩ := by
  rw [chanAt, cexVals, prodOps,
    List.take_append_of_le_length (by rw [sendOps_length]; rfl),
    List.take_of_length_le (by rw [sendOps_length]; rfl),
    foldl_sendOps _ _ _ (by simp [initChan])]
  simp [tagOf]

theorem cexChanTotal : chanAt 2 cexVals cexTotal = ⟨tagOf 1, [1, 1], tagOf 1⟩ := by
  have hlen : (prodOps 0 cexVals).length = cexTotal := by
    rw [prodOps_length 0 cexVals_len, cexVals_length, cexTotal]
  have hne : cexVals ≠ [] := by simp [cexVals]
  rw [chanAt, List.take_of_length_le (le_of_eq hlen),
    foldl_prodOps_full cexVals (initChan 2) 0 hne cexVals_len (by simp [initChan])]
  have hmod : (0 + cexVals.length) % VALUE_BITS = 1 % VALUE_BITS := by
    rw [cexVals_length, Nat.zero_add, Nat.add_comm, Nat.add_mod_right]
  rw [hmod]
  have hrep : List.replicate VALUE_BITS ([1, 1] : List Nat) ≠ [] := by
    intro hcon
    have hlencon := congrArg List.length hcon
    rw [List.length_replicate, List.length_nil] at hlencon
    exact absurd hlencon (by norm_num [VALUE_BITS])
  have hlast : cexVals.getLast hne = [1, 1] := by
    show (([0, 0] : List Nat) :: List.replicate VALUE_BITS [1, 1]).getLast _ = [1, 1]
    rw [List.getLast_cons hrep, List.getLast_replicate]
  rw [hlast]
  rfl

/-- **C1 (counterexample to the unamended claim).** A well-formed receive
attempt interleaved with `2^24` full sends between its load of `end` and its
load of `begin` succeeds and returns `[0, 1]`, a byte string mixing two
different writes and equal to no value ever sent. -/
theorem c1_counterexample :
    (recvAttempt 2 cexVals none 4 [4, cexTotal] cexTotal).1 = Except.ok [0, 1] ∧
    [0, 1] ∉ cexVals ∧
    (∀ v ∈ cexVals, v.length = 2) ∧
    ([4, cexTotal] : List Nat).length = 2 ∧
    (∀ p ∈ ([4, cexTotal] : List Nat), 4 ≤ p ∧ p ≤ cexTotal) ∧
    4 ≤ cexTotal := by
  have htot : 4 ≤ cexTotal := by
    simp only [cexTotal, VALUE_BITS]
    omega
  refine ⟨?_, ?_, cexVals_len, rfl, ?_, htot⟩
  · have hobs : recvObsBytes 2 cexVals [4, cexTotal] = [0, 1] := by
      simp only [recvObsBytes, List.enum_cons, List.enumFrom_cons, List.enumFrom_nil,
        List.map_cons, List.map_nil]
      rw [cexChan4, cexChanTotal]
      rfl
    rw [recvAttempt, hobs, cexChan4, cexChanTotal]
    simp only [recvDecide]
    rw [if_neg (by simp), if_neg (tagOf_land_good 1),
      if_neg (by simp : ¬ some (tagOf 1) = none)]
  · intro hmem
    rcases List.mem_cons.mp hmem with h | h
    · exact absurd h (by decide)
    · exact absurd (List.eq_of_mem_replicate h) (by decide)
  · intro p hp
    rcases List.mem_cons.mp hp with h | h
    · subst h
      exact ⟨le_refl 4, htot⟩
    · rw [List.mem_singleton.mp h]
      exact ⟨htot, le_refl _⟩

/-- Witness for `c1_spmc_read_integrity`: a quiescent receive of the single
value `[7]` after its send completed returns exactly `[7]`. -/
theorem c1_spmc_read_integrity_witness :
    (recvAttempt 1 [[7]] none 3 [3] 3).1 = Except.ok [7] ∧ [7] ∈ [[7]] :=
  ⟨by rfl, c1_spmc_read_integrity (B := 1) [[7]] none 3 3 [3] [7]
    (by decide) (by decide) (by decide) (by decide) (by decide) (by rfl)⟩

/-- **C4.** A single receive attempt copies the channel data into the local
buffer and resolves exactly as the specification's decision table does:
`Inconsistent` (with `last_seen` invalidated) on `begin ≠ end`,
`Unitialized` on GOOD bit unset, `WouldBlock` on `begin = last_seen`, and
otherwise success setting `last_seen := begin` and returning the buffer. -/
theorem c4_try_recv_decision (c : Chan) (ls : Option Nat) :
    try_recv_int c ls = try_recv_spec c ls := by
  rw [try_recv_int, recvDecide, try_recv_spec]
  by_cases h1 : c.beginTag ≠ c.endTag
  · rw [if_pos h1, if_pos h1]
  · rw [if_neg h1, if_neg h1]
    by_cases h2 : c.beginTag &&& GOOD_BIT = 0
    · rw [if_pos h2, if_pos ((land_good_eq_zero_iff _).mp h2)]
    · rw [if_neg h2, if_neg (fun hc => h2 ((land_good_eq_zero_iff _).mpr hc))]
      by_cases h3 : some c.beginTag = ls
      · rw [if_pos h3, if_pos h3]
      · rw [if_neg h3, if_neg h3]

/-- **C5.** `send_int` cannot fail: it returns `Ok`, advances the per-channel
counter to `(s+1) mod 2^24`, stores the tag `counter | GOOD_BIT`
(arithmetically `counter + 2^24`, i.e. bit 24 set), and performs its stores
in the order `begin := tag`, data bytes, `end := tag`; after the three steps
the channel holds exactly the sent value framed by the tag. -/
theorem c5_send_protocol (s : Nat) (v : List Nat) (c : Chan)
    (hc : c.data.length = v.length) :
    (send_int s v).1 = Except.ok () ∧
    (send_int s v).2.1 = (s + 1) % VALUE_BITS ∧
    sendOps s v =
      WOp.storeBegin (((s + 1) % VALUE_BITS) ||| GOOD_BIT) ::
        (v.enum.map (fun q => WOp.storeData q.1 q.2) ++
          [WOp.storeEnd (((s + 1) % VALUE_BITS) ||| GOOD_BIT)]) ∧
    ((s + 1) % VALUE_BITS) ||| GOOD_BIT = (s + 1) % VALUE_BITS + 2 ^ 24 ∧
    List.foldl applyOp c (sendOps s v) =
      ⟨((s + 1) % VALUE_BITS) ||| GOOD_BIT, v, ((s + 1) % VALUE_BITS) ||| GOOD_BIT⟩ :=
  ⟨rfl, rfl, sendOps_def s v,
    lor_two_pow_eq_add (Nat.mod_lt _ valueBits_pos),
    foldl_sendOps c s v hc⟩

/-- Witness for `c5_send_protocol` at counter `5`, value `[9, 9]`. -/
theorem c5_send_protocol_witness :
    (send_int 5 [9, 9]).1 = Except.ok () ∧
    (send_int 5 [9, 9]).2.1 = (5 + 1) % VALUE_BITS ∧
    sendOps 5 [9, 9] =
      WOp.storeBegin (((5 + 1) % VALUE_BITS) ||| GOOD_BIT) ::
        (([9, 9] : List Nat).enum.map (fun q => WOp.storeData q.1 q.2) ++
          [WOp.storeEnd (((5 + 1) % VALUE_BITS) ||| GOOD_BIT)]) ∧
    ((5 + 1) % VALUE_BITS) ||| GOOD_BIT = (5 + 1) % VALUE_BITS + 2 ^ 24 ∧
    List.foldl applyOp ⟨0, [0, 0], 0⟩ (sendOps 5 [9, 9]) =
      ⟨((5 + 1) % VALUE_BITS) ||| GOOD_BIT, [9, 9], ((5 + 1) % VALUE_BITS) ||| GOOD_BIT⟩ :=
  c5_send_protocol 5 [9, 9] ⟨0, [0, 0], 0⟩ rfl

theorem try_recv_int_inconsistent_none (c : Chan) (ls : Option Nat)
    (h : (try_recv_int c ls).1 = Except.error GtsTransportError.Inconsistent) :
    (try_recv_int c ls).2.1 = none := by
  rw [try_recv_int, recvDecide] at h ⊢
  split_ifs at h ⊢
  · rfl
  · simp at h
  · simp at h

theorem try_recv_multi_aux_step_inconsistent (chans : Nat → Chan)
    (fuel i : Nat) (ls : Option Nat)
    (h : (try_recv_int (chans i) ls).1 = Except.error GtsTransportError.Inconsistent) :
    try_recv_multi_aux chans (fuel + 1) i ls =
      try_recv_multi_aux chans fuel (i + 1) none := by
  rw [try_recv_multi_aux, h, try_recv_int_inconsistent_none (chans i) ls h]

theorem try_recv_multi_aux_step_stop (chans : Nat → Chan)
    (fuel i : Nat) (ls : Option Nat)
    (h : (try_recv_int (chans i) ls).1 ≠ Except.error GtsTransportError.Inconsistent) :
    try_recv_multi_aux chans (fuel + 1) i ls =
      ((try_recv_int (chans i) ls).1, (try_recv_int (chans i) ls).2.1, i + 1) := by
  rw [try_recv_multi_aux]
  rcases hr : (try_recv_int (chans i) ls).1 with e | val
  · cases e with
    | Inconsistent => exact absurd hr h
    | InconsistentHang => rfl
    | Unitialized => rfl
    | WouldBlock => rfl
  · rfl

theorem try_recv_multi_aux_run (chans : Nat → Chan) :
    ∀ (k fuel i : Nat) (ls : Option Nat), k ≤ fuel →
      (∀ j, j < k →
        (try_recv_int (chans (i + j)) (if j = 0 then ls else none)).1 =
          Except.error GtsTransportError.Inconsistent) →
      try_recv_multi_aux chans fuel i ls =
        try_recv_multi_aux chans (fuel - k) (i + k) (if k = 0 then ls else none) := by
  intro k
  induction k with
  | zero => intro fuel i ls _ _; simp
  | succ k ih =>
    intro fuel i ls hk hinc
    obtain ⟨f, rfl⟩ : ∃ f, fuel = f + 1 := ⟨fuel - 1, by omega⟩
    have h0 : (try_recv_int (chans i) ls).1 =
        Except.error GtsTransportError.Inconsistent := by
      have := hinc 0 (by omega)
      simpa using this
    rw [try_recv_multi_aux_step_inconsistent chans f i ls h0]
    have hrest : ∀ j, j < k →
        (try_recv_int (chans (i + 1 + j)) (if j = 0 then (none : Option Nat) else none)).1 =
          Except.error GtsTransportError.Inconsistent := by
      intro j hj
      have := hinc (j + 1) (by omega)
      have harg : i + (j + 1) = i + 1 + j := by omega
      rw [harg] at this
      simpa using this
    rw [ih f (i + 1) none (by omega) hrest]
    have h1 : f - k = f + 1 - (k + 1) := by omega
    have h2 : i + 1 + k = i + (k + 1) := by omega
    rw [h1, h2]
    by_cases hk0 : k = 0 <;> simp [hk0]

/-- **C6.** `try_recv_*_multi` repeats the single attempt while it returns
`Inconsistent`, for at most `MAX_ITER_TILL_HANG = 1000` iterations: if all
1000 attempts are `Inconsistent` it returns `InconsistentHang`; the first
attempt resolving otherwise (success, `WouldBlock` or `Unitialized`) has its
result returned immediately, after exactly `k + 1` attempts. -/
theorem c6_try_recv_multi (chans : Nat → Chan) (ls : Option Nat) :
    ((∀ i, i < MAX_ITER_TILL_HANG →
        (try_recv_int (chans i) (if i = 0 then ls else none)).1 =
          Except.error GtsTransportError.Inconsistent) →
      try_recv_multi chans ls =
        (Except.error GtsTransportError.InconsistentHang, none, MAX_ITER_TILL_HANG)) ∧
    (∀ k, k < MAX_ITER_TILL_HANG →
      (∀ j, j < k →
        (try_recv_int (chans j) (if j = 0 then ls else none)).1 =
          Except.error GtsTransportError.Inconsistent) →
      (try_recv_int (chans k) (if k = 0 then ls else none)).1 ≠
        Except.error GtsTransportError.Inconsistent →
      try_recv_multi chans ls =
        ((try_recv_int (chans k) (if k = 0 then ls else none)).1,
          (try_recv_int (chans k) (if k = 0 then ls else none)).2.1, k + 1)) := by
  constructor
  · intro hall
    rw [try_recv_multi, try_recv_multi_aux_run chans MAX_ITER_TILL_HANG
      MAX_ITER_TILL_HANG 0 ls (le_refl _) (fun j hj => by simpa using hall j hj)]
    have h1 : MAX_ITER_TILL_HANG - MAX_ITER_TILL_HANG = 0 := by omega
    rw [h1]
    rw [if_neg (by rw [MAX_ITER_TILL_HANG]; omega)]
    rfl
  · intro k hk hbefore hstop
    rw [try_recv_multi, try_recv_multi_aux_run chans k MAX_ITER_TILL_HANG 0 ls
      (by omega) (fun j hj => by simpa using hbefore j hj)]
    obtain ⟨f, hf⟩ : ∃ f, MAX_ITER_TILL_HANG - k = f + 1 :=
      ⟨MAX_ITER_TILL_HANG - k - 1, by omega⟩
    rw [hf]
    have hz : (0 : Nat) + k = k := by omega
    rw [hz] at *
    exact try_recv_multi_aux_step_stop chans f k _ (by rw [hz] at hstop ⊢; exact hstop)

/-- Witness for `c6_try_recv_multi`: against a constant published channel the
first attempt succeeds, so `try_recv_multi` returns the value after exactly
one iteration. -/
theorem c6_try_recv_multi_witness :
    try_recv_multi (fun _ => ⟨tagOf 1, [5], tagOf 1⟩) none =
      (Except.ok [5], some (tagOf 1), 1) := by
  have hgood := tagOf_land_good 1
  have h := (c6_try_recv_multi (fun _ => ⟨tagOf 1, [5], tagOf 1⟩) none).2 0
    (by rw [MAX_ITER_TILL_HANG]; omega)
    (fun j hj => absurd hj (Nat.not_lt_zero j))
    (by simp [try_recv_int, recvDecide, hgood])
  rw [h]
  simp [try_recv_int, recvDecide, hgood]

end Spmc

namespace Spsc

theorem inv_init {α : Type} (R : Nat) : Inv R (initRing α R) [] [] := by
  constructor <;> simp [initRing]

theorem mod_eq_mod_iff_of_bounded {R S n : Nat} (hSn : S ≤ n)
    (hbound : n - S < R) : n % R = S % R ↔ n = S := by
  constructor
  · intro h
    have hdvd : R ∣ n - S := (Nat.modEq_iff_dvd' hSn).mp h.symm
    have := Nat.eq_zero_of_dvd_of_lt hdvd
    omega
  · intro h
    rw [h]

theorem full_iff {R S n : Nat} (hR : 0 < R) (hSn : S ≤ n)
    (hbound : n - S ≤ R - 1) :
    S % R = (n % R + 1) % R ↔ n - S = R - 1 := by
  rw [Nat.mod_add_mod]
  constructor
  · intro h
    have hd : R ∣ (n + 1) - S := (Nat.modEq_iff_dvd' (by omega)).mp h
    have hge := Nat.le_of_dvd (by omega) hd
    omega
  · intro h
    have hn1 : n + 1 = S + R := by omega
    rw [hn1, Nat.add_mod_right]

theorem send_ok_inv {α : Type} {R : Nat} {st : RingState α} {sent : List α}
    {rcvd : List (Option α)} (hR : 0 < R) (hInv : Inv R st sent rcvd) (v : α)
    (hnotfull : sent.length - rcvd.length < R - 1) :
    (send R st v).1 = Except.ok () ∧ Inv R (send R st v).2 (sent ++ [v]) rcvd := by
  have hcond : ¬ st.read_done_seqnum = (st.last_send_seqnum + 1) % R := by
    rw [hInv.readDone, hInv.lastSend]
    intro hc
    have := (full_iff hR hInv.len_le hInv.cap).mp hc
    omega
  have hnext : (st.last_send_seqnum + 1) % R = (sent.length + 1) % R := by
    rw [hInv.lastSend, Nat.mod_add_mod]
  rw [send]
  simp only [if_neg hcond]
  refine ⟨trivial, ?_⟩
  have hlen1 : (sent ++ [v]).length = sent.length + 1 := by simp
  have hll := hInv.len_le
  constructor
  · rw [List.take_append_of_le_length hInv.len_le]
    exact hInv.copies_eq
  · simp only [hlen1]
    omega
  · simp only [hlen1]
    omega
  · simp only [hlen1, hnext]
  · simp only [hlen1, hnext]
  · simp only [hInv.readDone]
  · simp only [List.length_set, hInv.dataLen]
  · intro i hi1 hi2
    simp only [hlen1] at hi2
    rw [hnext, List.getD_eq_getElem?_getD]
    by_cases hin : i = sent.length
    · subst hin
      rw [List.getElem?_set_self (by rw [hInv.dataLen]; exact Nat.mod_lt _ hR)]
      rw [List.getElem?_concat_length]
      rfl
    · have hilt : i < sent.length := by omega
      have hne : (sent.length + 1) % R ≠ (i + 1) % R := by
        intro hc
        have := (mod_eq_mod_iff_of_bounded (by omega : i + 1 ≤ sent.length + 1)
          (by omega : sent.length + 1 - (i + 1) < R)).mp hc
        omega
      rw [List.getElem?_set_ne hne, ← List.getD_eq_getElem?_getD,
        hInv.dataAt i hi1 hilt, List.getElem?_append_left hilt]

theorem send_blocked {α : Type} {R : Nat} {st : RingState α} {sent : List α}
    {rcvd : List (Option α)} (hR : 0 < R) (hInv : Inv R st sent rcvd) (v : α)
    (hfull : sent.length - rcvd.length = R - 1) :
    send R st v = (Except.error GtsTransportError.WouldBlock, st) := by
  have hcond : st.read_done_seqnum = (st.last_send_seqnum + 1) % R := by
    rw [hInv.readDone, hInv.lastSend]
    exact (full_iff hR hInv.len_le hInv.cap).mpr hfull
  rw [send]
  simp only [if_pos hcond]

theorem recv_ok_inv {α : Type} {R : Nat} {st : RingState α} {sent : List α}
    {rcvd : List (Option α)} (hR : 0 < R) (hInv : Inv R st sent rcvd)
    (hlt : rcvd.length < sent.length) :
    (try_recv R st).1 = Except.ok (sent[rcvd.length]?) ∧
    Inv R (try_recv R st).2 sent (rcvd ++ [sent[rcvd.length]?]) := by
  have hcond : ¬ st.write_done_seqnum = st.read_done_seqnum := by
    rw [hInv.writeDone, hInv.readDone]
    intro hc
    have := (mod_eq_mod_iff_of_bounded hInv.len_le
      (by have := hInv.cap; omega)).mp hc
    omega
  have hnext : (st.read_done_seqnum + 1) % R = (rcvd.length + 1) % R := by
    rw [hInv.readDone, Nat.mod_add_mod]
  have hcopy : st.data.getD ((st.read_done_seqnum + 1) % R) none =
      sent[rcvd.length]? := by
    rw [hnext]
    exact hInv.dataAt rcvd.length (le_refl _) hlt
  rw [try_recv]
  simp only [if_neg hcond]
  rw [hcopy]
  refine ⟨rfl, ?_⟩
  obtain ⟨w, hw⟩ : ∃ w, sent[rcvd.length]? = some w :=
    ⟨sent[rcvd.length], List.getElem?_eq_getElem hlt⟩
  have hlen1 : (rcvd ++ [sent[rcvd.length]?]).length = rcvd.length + 1 := by simp
  have hcap := hInv.cap
  constructor
  · rw [hlen1, List.take_succ, List.map_append, ← hInv.copies_eq, hw]
    rfl
  · rw [hlen1]
    omega
  · rw [hlen1]
    omega
  · exact hInv.lastSend
  · exact hInv.writeDone
  · rw [hlen1, hnext]
  · exact hInv.dataLen
  · intro i hi1 hi2
    rw [hlen1] at hi1
    exact hInv.dataAt i (by omega) hi2

theorem recv_blocked {α : Type} {R : Nat} {st : RingState α} {sent : List α}
    {rcvd : List (Option α)} (hInv : Inv R st sent rcvd)
    (heq : rcvd.length = sent.length) :
    try_recv R st = (Except.error GtsTransportError.WouldBlock, st) := by
  have hcond : st.write_done_seqnum = st.read_done_seqnum := by
    rw [hInv.writeDone, hInv.readDone, heq]
  rw [try_recv]
  simp only [if_pos hcond]

theorem foldl_inv {α : Type} (R : Nat) (hR : 0 < R) :
    ∀ (ops : List (RingOp α)) (acc : RingState α × List α × List (Option α)),
      Inv R acc.1 acc.2.1 acc.2.2 →
      Inv R (ops.foldl (stepOp R) acc).1 (ops.foldl (stepOp R) acc).2.1
        (ops.foldl (stepOp R) acc).2.2 := by
  intro ops
  induction ops with
  | nil => intro acc h; exact h
  | cons op rest ih =>
    intro acc hInv
    rw [List.foldl_cons]
    apply ih
    rcases op with v | _
    · by_cases hfull : acc.2.1.length - acc.2.2.length = R - 1
      · have hb := send_blocked hR hInv v hfull
        simp only [stepOp, hb]
        exact hInv
      · have ho := send_ok_inv hR hInv v (by have := hInv.cap; omega)
        rcases hp : send R acc.1 v with ⟨r, s⟩
        rw [hp] at ho
        obtain ⟨ho1, ho2⟩ := ho
        simp only at ho1
        subst ho1
        simp only [stepOp, hp]
        exact ho2
    · by_cases heq : acc.2.2.length = acc.2.1.length
      · have hb := recv_blocked hInv heq
        simp only [stepOp, hb]
        exact hInv
      · have ho := recv_ok_inv hR hInv (by have := hInv.len_le; omega)
        rcases hp : try_recv R acc.1 with ⟨r, s⟩
        rw [hp] at ho
        obtain ⟨ho1, ho2⟩ := ho
        simp only at ho1
        subst ho1
        simp only [stepOp, hp]
        exact ho2

/-- **C2.** SPSC FIFO: over any operation sequence the successfully received
copies are exactly the prefix of the successfully sent values, in order; in
particular when as many receives as sends succeeded, the consumer received
`v₁, …, vₙ` exactly — nothing lost, duplicated or reordered. -/
theorem c2_spsc_fifo {α : Type} (R : Nat) (hR : 0 < R) (ops : List (RingOp α)) :
    (runOps R ops).2.2 =
      ((runOps R ops).2.1.take (runOps R ops).2.2.length).map some ∧
    ((runOps R ops).2.2.length = (runOps R ops).2.1.length →
      (runOps R ops).2.2 = (runOps R ops).2.1.map some) := by
  have h : Inv R (runOps R ops).1 (runOps R ops).2.1 (runOps R ops).2.2 := by
    rw [runOps]
    exact foldl_inv R hR ops (initRing α R, [], []) (inv_init R)
  refine ⟨h.copies_eq, fun hlen => ?_⟩
  rw [h.copies_eq, hlen, List.take_length]

/-- Witness for `c2_spsc_fifo`: two sends then two receives on a ring of
size 3 deliver both values in order. -/
theorem c2_spsc_fifo_witness :
    (runOps 3 [RingOp.send 1, RingOp.send 2, RingOp.recv, RingOp.recv]).2.2 =
      ((runOps 3 [RingOp.send 1, RingOp.send 2, RingOp.recv,
          RingOp.recv]).2.1.take
        (runOps 3 [RingOp.send 1, RingOp.send 2, RingOp.recv,
          RingOp.recv]).2.2.length).map some ∧
    (runOps 3 [RingOp.send 1, RingOp.send 2, RingOp.recv, RingOp.recv]).2.2 =
      [some 1, some 2] :=
  ⟨(c2_spsc_fifo 3 (by decide)
      [RingOp.send 1, RingOp.send 2, RingOp.recv, RingOp.recv]).1,
    by decide⟩

theorem run_sends {α : Type} (R : Nat) (hR : 0 < R) :
    ∀ (vs : List α) (acc : RingState α × List α × List (Option α)),
      Inv R acc.1 acc.2.1 acc.2.2 →
      acc.2.1.length - acc.2.2.length + vs.length ≤ R - 1 →
      ((vs.map RingOp.send).foldl (stepOp R) acc).2.1 = acc.2.1 ++ vs ∧
      ((vs.map RingOp.send).foldl (stepOp R) acc).2.2 = acc.2.2 ∧
      Inv R ((vs.map RingOp.send).foldl (stepOp R) acc).1 (acc.2.1 ++ vs)
        acc.2.2 := by
  intro vs
  induction vs with
  | nil =>
    intro acc hInv _
    simp only [List.map_nil, List.foldl_nil, List.append_nil]
    exact ⟨trivial, trivial, hInv⟩
  | cons v vs' ih =>
    intro acc hInv hroom
    have hll := hInv.len_le
    have ho := send_ok_inv hR hInv v (by simp at hroom; omega)
    rcases hp : send R acc.1 v with ⟨r, s⟩
    rw [hp] at ho
    obtain ⟨ho1, ho2⟩ := ho
    simp only at ho1
    subst ho1
    rw [List.map_cons, List.foldl_cons]
    have hstep : stepOp R acc (RingOp.send v) = (s, acc.2.1 ++ [v], acc.2.2) := by
      simp only [stepOp, hp]
    rw [hstep]
    have hres := ih (s, acc.2.1 ++ [v], acc.2.2) ho2
      (by simp at hroom ⊢; omega)
    obtain ⟨h1, h2, h3⟩ := hres
    refine ⟨?_, h2, ?_⟩
    · rw [h1]
      simp
    · rw [show (acc.2.1 ++ [v]) ++ vs' = acc.2.1 ++ v :: vs' by simp] at h3
      exact h3

/-- **C3.** SPSC capacity: from an empty ring of size `R`, all of `R − 1`
sends succeed with nothing received, and the next send returns `WouldBlock`
leaving the state untouched; moreover from any reachable state, a blocked
send changes nothing, and after a successful receive exactly one further
send succeeds before the ring is full again. -/
theorem c3_spsc_capacity {α : Type} (R : Nat) (hR : 0 < R) :
    (∀ vs : List α, vs.length = R - 1 →
      (runOps R (vs.map RingOp.send)).2.1 = vs ∧
      (runOps R (vs.map RingOp.send)).2.2 = [] ∧
      (∀ v : α, send R (runOps R (vs.map RingOp.send)).1 v =
        (Except.error GtsTransportError.WouldBlock,
          (runOps R (vs.map RingOp.send)).1))) ∧
    (∀ (ops : List (RingOp α)) (v w x : α),
      (send R (runOps R ops).1 v).1 = Except.error GtsTransportError.WouldBlock →
      (send R (runOps R ops).1 v).2 = (runOps R ops).1 ∧
      (∀ (c : Option α) (st' : RingState α),
        try_recv R (runOps R ops).1 = (Except.ok c, st') →
        (send R st' w).1 = Except.ok () ∧
        (send R (send R st' w).2 x).1 =
          Except.error GtsTransportError.WouldBlock)) := by
  constructor
  · intro vs hlen
    have hrun := run_sends R hR vs (initRing α R, [], []) (inv_init R)
      (by simpa using le_of_eq hlen)
    obtain ⟨h1, h2, h3⟩ := hrun
    simp only at h1 h2
    rw [runOps]
    refine ⟨by simpa using h1, by simpa using h2, ?_⟩
    intro v
    have hfull : ((([] : List α) ++ vs).length -
        (([] : List (Option α))).length = R - 1) := by
      simpa using hlen
    exact send_blocked hR h3 v hfull
  · intro ops v w x hblk
    have hInv : Inv R (runOps R ops).1 (runOps R ops).2.1 (runOps R ops).2.2 := by
      rw [runOps]
      exact foldl_inv R hR ops (initRing α R, [], []) (inv_init R)
    have hfull : (runOps R ops).2.1.length - (runOps R ops).2.2.length = R - 1 := by
      by_contra hnf
      have hok := (send_ok_inv hR hInv v (by have := hInv.cap; omega)).1
      rw [hok] at hblk
      exact Except.noConfusion hblk
    refine ⟨congrArg Prod.snd (send_blocked hR hInv v hfull), ?_⟩
    intro c st' hrecv
    have hlt : (runOps R ops).2.2.length < (runOps R ops).2.1.length := by
      by_contra hge
      have heq : (runOps R ops).2.2.length = (runOps R ops).2.1.length := by
        have := hInv.len_le
        omega
      rw [recv_blocked hInv heq] at hrecv
      simp at hrecv
    have hro := recv_ok_inv hR hInv hlt
    have hst' : (try_recv R (runOps R ops).1).2 = st' := by
      rw [hrecv]
    rw [hst'] at hro
    have hInv' := hro.2
    have hcap := hInv.cap
    have hll := hInv.len_le
    have hok2 := send_ok_inv hR hInv' w
      (by simp only [List.length_append, List.length_cons, List.length_nil]; omega)
    refine ⟨hok2.1, ?_⟩
    have hInv'' := hok2.2
    have hfull'' :
        ((runOps R ops).2.1 ++ [w]).length -
          ((runOps R ops).2.2 ++ [(runOps R ops).2.1[(runOps R ops).2.2.length]?]).length =
          R - 1 := by
      simp only [List.length_append, List.length_cons, List.length_nil]
      omega
    exact congrArg Prod.fst (send_blocked hR hInv'' x hfull'')

/-- Witness for `c3_spsc_capacity` on a ring of size 3: both leading sends
succeed, the third send blocks, and after one receive exactly one more send
fits. -/
theorem c3_spsc_capacity_witness :
    (runOps 3 [RingOp.send 1, RingOp.send 2]).2.1 = [1, 2] ∧
    (send 3 (runOps 3 [RingOp.send 1, RingOp.send 2]).1 (7 : Nat)).1 =
      Except.error GtsTransportError.WouldBlock := by
  have h := (c3_spsc_capacity (α := Nat) 3 (by decide)).1 [1, 2] (by decide)
  simp only [List.map_cons, List.map_nil] at h
  exact ⟨h.1, by rw [h.2.2 7]⟩

/-- **C9.** `get_last_value` always returns `none`, whatever operations ran:
`try_recv` never writes the receiver's `last_read_seqnum` field, which alone
guards the copy buffer. -/
theorem c9_get_last_value_none {α : Type} (R : Nat) (ops : List (RingOp α)) :
    (runOps R ops).1.last_read_seqnum = none ∧
    get_last_value (runOps R ops).1 = none := by
  have key : ∀ (l : List (RingOp α)) (acc : RingState α × List α × List (Option α)),
      acc.1.last_read_seqnum = none →
      (l.foldl (stepOp R) acc).1.last_read_seqnum = none := by
    intro l
    induction l with
    | nil => intro acc h; exact h
    | cons op rest ih =>
      intro acc h
      rw [List.foldl_cons]
      apply ih
      rcases op with v | _
      · rcases hp : send R acc.1 v with ⟨r, s⟩
        have hs : s.last_read_seqnum = none := by
          rw [send] at hp
          split_ifs at hp
          · rw [← (Prod.mk.injEq _ _ _ _).mp hp |>.2]
            exact h
          · rw [← (Prod.mk.injEq _ _ _ _).mp hp |>.2]
            exact h
        rcases r with e | u
        · simp only [stepOp, hp]
          exact hs
        · simp only [stepOp, hp]
          exact hs
      · rcases hp : try_recv R acc.1 with ⟨r, s⟩
        have hs : s.last_read_seqnum = none := by
          rw [try_recv] at hp
          split_ifs at hp
          · rw [← (Prod.mk.injEq _ _ _ _).mp hp |>.2]
            exact h
          · rw [← (Prod.mk.injEq _ _ _ _).mp hp |>.2]
            exact h
        rcases r with e | u
        · simp only [stepOp, hp]
          exact hs
        · simp only [stepOp, hp]
          exact hs
  have hnone : (runOps R ops).1.last_read_seqnum = none :=
    key ops (initRing α R, [], []) rfl
  exact ⟨hnone, by rw [get_last_value, hnone]⟩

end Spsc

namespace Logger

theorem runLogOps_pairwise {E : Type} (clock : Nat → Nat) :
    ∀ (ops : List (LogOp E)) (t s j : Nat),
      s + ops.length < 2 ^ 32 →
      (∀ j', j ≤ j' → t < clock j') →
      (∀ j1 j2, j1 < j2 → clock j1 < clock j2) →
      ((runLogOps clock (t, s) j ops).Pairwise
        (fun a b => pairLt (a.1, a.2.1) (b.1, b.2.1))) ∧
      (∀ ev ∈ runLogOps clock (t, s) j ops, pairLt (t, s) (ev.1, ev.2.1)) := by
  intro ops
  induction ops with
  | nil => intro t s j _ _ _; simp [runLogOps]
  | cons op rest ih =>
    intro t s j hlen hclock hmono
    rcases op with e | e
    · -- log: fresh timestamp
      simp only [runLogOps]
      have ht : t < clock j := hclock j (le_refl j)
      have hrest := ih (clock j) 0 (j + 1)
        (by simp at hlen ⊢; omega)
        (fun j' hj' => hmono j j' (by omega))
        hmono
      constructor
      · rw [List.pairwise_cons]
        refine ⟨?_, hrest.1⟩
        intro ev hev
        exact hrest.2 ev hev
      · intro ev hev
        rcases List.mem_cons.mp hev with h | h
        · rw [h]
          exact Or.inl ht
        · have h2 := hrest.2 ev h
          rcases h2 with h2 | h2
          · exact Or.inl (lt_trans ht h2)
          · exact Or.inl (h2.1 ▸ ht)
    · -- log_same: same timestamp, next seqid
      simp only [runLogOps]
      have hs : (s + 1) % 2 ^ 32 = s + 1 := by
        apply Nat.mod_eq_of_lt
        simp at hlen
        omega
      rw [hs]
      have hrest := ih t (s + 1) j
        (by simp at hlen ⊢; omega) hclock hmono
      constructor
      · rw [List.pairwise_cons]
        refine ⟨?_, hrest.1⟩
        intro ev hev
        exact hrest.2 ev hev
      · intro ev hev
        rcases List.mem_cons.mp hev with h | h
        · rw [h]
          exact Or.inr ⟨rfl, Nat.lt_succ_self s⟩
        · have h2 := hrest.2 ev h
          rcases h2 with h2 | h2
          · exact Or.inl h2
          · exact Or.inr ⟨h2.1, lt_trans (Nat.lt_succ_self s) h2.2⟩

/-- **C7.** Log ordering: on one client whose clock readings are positive and
strictly increasing (the spec's monotonic clock), and across fewer than
`2^32` calls (no `seqid` wrap), the `(timestamp, seqid)` pairs of the
enqueued events strictly increase lexicographically. -/
theorem c7_log_ordering {E : Type} (clock : Nat → Nat) (ops : List (LogOp E))
    (hlen : ops.length < 2 ^ 32)
    (hpos : ∀ j, 0 < clock j)
    (hmono : ∀ j1 j2, j1 < j2 → clock j1 < clock j2) :
    (runLogOps clock (0, 0) 0 ops).Pairwise
      (fun a b => pairLt (a.1, a.2.1) (b.1, b.2.1)) :=
  (runLogOps_pairwise clock ops 0 0 0 (by omega)
    (fun j' _ => hpos j') hmono).1

/-- Witness for `c7_log_ordering`: `log`, `log_same`, `log` with clock
readings `1, 2, …` give the strictly increasing pairs
`(1,0) < (1,1) < (2,0)`. -/
theorem c7_log_ordering_witness :
    (runLogOps (fun j => j + 1) (0, 0) 0
      [LogOp.log 0, LogOp.log_same 0, LogOp.log (0 : Nat)]).Pairwise
      (fun a b => pairLt (a.1, a.2.1) (b.1, b.2.1)) :=
  c7_log_ordering (fun j => j + 1) [LogOp.log 0, LogOp.log_same 0, LogOp.log 0]
    (by norm_num) (fun j => Nat.succ_pos j) (fun j1 j2 h => Nat.succ_lt_succ h)

theorem runLogOps_replicate_log_same {E : Type} (clock : Nat → Nat) (e : E) :
    ∀ (k t s j : Nat), s + k < 2 ^ 32 →
      runLogOps clock (t, s) j (List.replicate k (LogOp.log_same e)) =
        (List.range k).map (fun i => (t, s + i + 1, e)) := by
  intro k
  induction k with
  | zero => intro t s j _; simp [runLogOps]
  | succ k ih =>
    intro t s j hk
    rw [List.replicate_succ]
    simp only [runLogOps]
    have hs : (s + 1) % 2 ^ 32 = s + 1 := Nat.mod_eq_of_lt (by omega)
    rw [hs, ih t (s + 1) j (by omega), List.range_succ_eq_map]
    simp only [List.map_cons, List.map_map, Nat.add_zero]
    congr 1
    apply List.map_congr_left
    intro i _
    simp [Function.comp]
    omega

/-- **C10.** `log_same` on a fresh client: `last_ts` starts at `(0, 0)`, so
the `k`-th consecutive leading `log_same` call (for `k < 2^32`) enqueues the
event `(0, k)`; in particular the first enqueues timestamp `0`, seqid `1`. -/
theorem c10_leading_log_same {E : Type} (clock : Nat → Nat) (e : E) (k : Nat)
    (hk : k < 2 ^ 32) :
    runLogOps clock (0, 0) 0 (List.replicate k (LogOp.log_same e)) =
      (List.range k).map (fun i => (0, i + 1, e)) := by
  rw [runLogOps_replicate_log_same clock e k 0 0 0 (by omega)]
  apply List.map_congr_left
  intro i _
  simp

/-- Witness for `c10_leading_log_same`: three leading `log_same` calls
enqueue `(0,1)`, `(0,2)`, `(0,3)`. -/
theorem c10_leading_log_same_witness :
    runLogOps (fun j => j + 1) (0, 0) 0
        (List.replicate 3 (LogOp.log_same (0 : Nat))) =
      [(0, 1, 0), (0, 2, 0), (0, 3, 0)] := by
  rw [c10_leading_log_same (fun j => j + 1) (0 : Nat) 3 (by norm_num)]
  rfl

end Logger

namespace DualThread

/-- **C8.** With one buffered record and 6 s since the last flush, the flush
condition holds, yet the writer cycle only resets the flush timestamp: it
writes nothing and keeps the record buffered; in fact no cycle ever emits
bytes to a sink.  The specification's serialize-and-write step has no
counterpart in the source. -/
theorem c8_writer_never_writes :
    writerCycle [(0 : Nat)] [] 6000 = ([0], true, []) ∧
    (∀ (ρ : Type) (logs queue : List ρ) (elapsedMs : Nat),
      (writerCycle logs queue elapsedMs).2.2 = []) := by
  constructor
  · decide
  · intro ρ logs queue e
    rw [writerCycle]
    split_ifs <;> rfl

end DualThread
